import Mathlib

/-!
# Verification of the claude-exporter extraction engine

Shallow embedding of `fiction_index.py` and `open-learning-cloud.py`:
the path recognizer (`is_path`), the fence predicate
(`is_fence_code_block`), the four extraction strategies
(`pass_01_fence_md_h1`, `pass_01_fence_md_h3`, `pass_02_fence_ts` /
`pass_02`, and the loose variant `pass_01_a`), and the driver.

Strings are modelled as `List Char`.  Side effects are made explicit:
a strategy returns the list of `(path, content)` units it writes, in
write order, and a Python exception (failed `assert`, `IndexError` from
`split()[0]`, `ValueError` from unpacking `split('\n', 1)`) is modelled
as `none`.  The external markdown-it tokenizer is a parameter
`parse : List Char → List Token`.
-/

namespace ClaudeExporter

/-- Embeds the markdown-it `Token` attributes that the code reads:
`type`, `tag`, `markup`, `info`, `content`, `level`, `hidden`, `block`. -/
structure Token where
  type : List Char
  tag : List Char
  markup : List Char
  info : List Char
  content : List Char
  level : Nat
  hidden : Bool
  block : Bool
deriving DecidableEq

/-! ## The path pattern `^[.A-Za-z][/\-_A-Za-z]*(\.[a-z]+)*$`

`path_pattern` below transcribes the compiled regular expression
literally as a `RegularExpression Char`; `path_shape_match` is the
executable matcher the embedded code uses, and
`path_shape_match_eq_rmatch` proves that the two agree on every string.
-/

/-- The characters `A-Z`. -/
def upperChars : List Char := "ABCDEFGHIJKLMNOPQRSTUVWXYZ".toList

/-- The characters `a-z`. -/
def lowerChars : List Char := "abcdefghijklmnopqrstuvwxyz".toList

/-- The class `[.A-Za-z]` (first character of the pattern). -/
def firstChars : List Char := '.' :: (upperChars ++ lowerChars)

/-- The class `[/\-_A-Za-z]` (characters after the first). -/
def midChars : List Char := '/' :: '-' :: '_' :: (upperChars ++ lowerChars)

/-- Membership in `[/\-_A-Za-z]`. -/
def isMid (c : Char) : Bool := midChars.contains c

/-- Membership in `[a-z]`. -/
def isLow (c : Char) : Bool := lowerChars.contains c

/-- States of the deterministic automaton recognizing the pattern's tail
`[/\-_A-Za-z]*(\.[a-z]+)*$`: `mid` while inside the middle class run,
`afterDot` right after a group's dot, `inExt` inside a group's lowercase
run. -/
inductive PState where
  | mid
  | afterDot
  | inExt
deriving DecidableEq

/-- Transition function of the tail automaton.  The middle class does
not contain the dot, so a dot always starts an extension group; once a
group has started only dots and lowercase letters may follow. -/
def tailStep : PState → Char → Option PState
  | .mid, c => if c = '.' then some .afterDot else if isMid c then some .mid else none
  | .afterDot, c => if isLow c then some .inExt else none
  | .inExt, c => if c = '.' then some .afterDot else if isLow c then some .inExt else none

/-- Accepting states: a group must not end right after its dot. -/
def tailAccept : PState → Bool
  | .mid => true
  | .afterDot => false
  | .inExt => true

/-- Run of the tail automaton. -/
def tailRun (st : PState) : List Char → Bool
  | [] => tailAccept st
  | c :: r =>
    match tailStep st c with
    | none => false
    | some st2 => tailRun st2 r

/-- Executable matcher for the whole anchored pattern
`^[.A-Za-z][/\-_A-Za-z]*(\.[a-z]+)*$`: a first character from
`[.A-Za-z]`, then the tail automaton.  `path_shape_match_eq_rmatch`
proves it equal to the transcribed regular expression. -/
def path_shape_match : List Char → Bool
  | [] => false
  | c :: t => firstChars.contains c && tailRun .mid t

/-- A union-of-characters class as a regular expression. -/
def chClass (cs : List Char) : RegularExpression Char :=
  cs.foldr (fun c r => RegularExpression.char c + r) 0

/-- The sub-pattern `[a-z]+`. -/
def lowPlus : RegularExpression Char :=
  chClass lowerChars * RegularExpression.star (chClass lowerChars)

/-- The sub-pattern `\.[a-z]+` (one extension group). -/
def extGroup : RegularExpression Char :=
  RegularExpression.char '.' * lowPlus

/-- The compiled pattern `^[.A-Za-z][/\-_A-Za-z]*(\.[a-z]+)*$` of
`fiction_index.py` line 11 (`path_pattern`), transcribed as a regular
expression: first-class character, then star of the middle class, then
star of (dot, then a nonempty lowercase run). -/
def path_pattern : RegularExpression Char :=
  chClass firstChars *
    (RegularExpression.star (chClass midChars) * RegularExpression.star extGroup)

/-- Python `re.match` of the anchored pattern: `$` matches at the end of
the string and also just before a single trailing newline.  Because no
character class of `path_pattern` contains `'\n'`, these are the only
two positions at which a match can end, so this disjunction is exactly
Python's behaviour (see `rmatch_no_newline`). -/
def path_pattern_match (s : List Char) : Bool :=
  path_shape_match s || (s.getLast? == some '\n' && path_shape_match s.dropLast)

/-- Embedding of `is_path`, `fiction_index.py` lines 15-16 (identical in
`open-learning-cloud.py`):
`('.' in p or p == 'LICENSE') and bool(path_pattern.match(p))`. -/
def is_path (p : List Char) : Bool :=
  (p.contains '.' || p == "LICENSE".toList) && path_pattern_match p

/-! ### `path_shape_match` agrees with the transcribed regular expression -/

theorem chClass_rmatch_iff (cs : List Char) (x : List Char) :
    (chClass cs).rmatch x = true ↔ ∃ c, c ∈ cs ∧ x = [c] := by
  induction cs with
  | nil =>
    rw [show chClass ([] : List Char) = 0 from rfl, RegularExpression.zero_rmatch]
    simp
  | cons c cs ih =>
    simp only [chClass, List.foldr_cons] at *
    rw [RegularExpression.add_rmatch_iff, RegularExpression.char_rmatch_iff, ih]
    constructor
    · rintro (rfl | ⟨d, hd, rfl⟩)
      · exact ⟨c, by simp⟩
      · exact ⟨d, by simp [hd]⟩
    · rintro ⟨d, hd, rfl⟩
      rcases List.mem_cons.mp hd with rfl | hd
      · exact Or.inl rfl
      · exact Or.inr ⟨d, hd, rfl⟩

theorem flatten_map_singleton {α : Type} (x : List α) :
    (x.map (fun c => [c])).flatten = x := by
  induction x with
  | nil => rfl
  | cons a t ih => simp only [List.map_cons, List.flatten_cons, ih, List.singleton_append]

theorem starClass_rmatch_iff (cs : List Char) (x : List Char) :
    (RegularExpression.star (chClass cs)).rmatch x = true ↔ ∀ c ∈ x, c ∈ cs := by
  rw [RegularExpression.star_rmatch_iff]
  constructor
  · rintro ⟨S, rfl, hS⟩ c hc
    obtain ⟨t, ht, hct⟩ := List.mem_flatten.mp hc
    obtain ⟨d, hd, rfl⟩ := (chClass_rmatch_iff cs t).mp (hS t ht).2
    rcases List.mem_singleton.mp hct with rfl
    exact hd
  · intro h
    refine ⟨x.map (fun c => [c]), (flatten_map_singleton x).symm, ?_⟩
    intro t ht
    obtain ⟨c, hc, rfl⟩ := List.mem_map.mp ht
    exact ⟨by simp, (chClass_rmatch_iff cs [c]).mpr ⟨c, h c hc, rfl⟩⟩

theorem contains_iff_mem {c : Char} {l : List Char} : l.contains c = true ↔ c ∈ l :=
  List.elem_iff

/-- The language of `(\.[a-z]+)*`: a concatenation of groups, each a dot
followed by a nonempty lowercase run. -/
inductive ExtGroups : List Char → Prop
  | nil : ExtGroups []
  | grp (run rest : List Char) : run ≠ [] → (∀ c ∈ run, isLow c = true) →
      ExtGroups rest → ExtGroups ('.' :: (run ++ rest))

theorem lowPlus_rmatch_iff (x : List Char) :
    lowPlus.rmatch x = true ↔ x ≠ [] ∧ ∀ c ∈ x, isLow c = true := by
  rw [show lowPlus = chClass lowerChars * RegularExpression.star (chClass lowerChars) from rfl,
    RegularExpression.mul_rmatch_iff]
  constructor
  · rintro ⟨t, u, rfl, ht, hu⟩
    obtain ⟨c, hc, rfl⟩ := (chClass_rmatch_iff _ _).mp ht
    have hall := (starClass_rmatch_iff _ _).mp hu
    refine ⟨by simp, ?_⟩
    intro d hd
    rcases List.mem_append.mp hd with hd | hd
    · rcases List.mem_singleton.mp hd with rfl
      exact contains_iff_mem.mpr hc
    · exact contains_iff_mem.mpr (hall d hd)
  · rintro ⟨hne, hall⟩
    obtain ⟨c, u, rfl⟩ := List.exists_cons_of_ne_nil hne
    refine ⟨[c], u, rfl, ?_, ?_⟩
    · exact (chClass_rmatch_iff _ _).mpr ⟨c, contains_iff_mem.mp (hall c (by simp)), rfl⟩
    · exact (starClass_rmatch_iff _ _).mpr fun d hd =>
        contains_iff_mem.mp (hall d (List.mem_cons_of_mem c hd))

theorem extGroup_rmatch_iff (x : List Char) :
    extGroup.rmatch x = true ↔
      ∃ run, x = '.' :: run ∧ run ≠ [] ∧ ∀ c ∈ run, isLow c = true := by
  rw [show extGroup = RegularExpression.char '.' * lowPlus from rfl,
    RegularExpression.mul_rmatch_iff]
  constructor
  · rintro ⟨t, u, rfl, ht, hu⟩
    rcases (RegularExpression.char_rmatch_iff _ _).mp ht with rfl
    obtain ⟨hne, hall⟩ := (lowPlus_rmatch_iff u).mp hu
    exact ⟨u, rfl, hne, hall⟩
  · rintro ⟨run, rfl, hne, hall⟩
    exact ⟨['.'], run, rfl, (RegularExpression.char_rmatch_iff _ _).mpr rfl,
      (lowPlus_rmatch_iff run).mpr ⟨hne, hall⟩⟩

theorem flatten_extGroups (S : List (List Char))
    (hS : ∀ t ∈ S, t ≠ [] ∧ extGroup.rmatch t = true) : ExtGroups S.flatten := by
  induction S with
  | nil => exact ExtGroups.nil
  | cons p S ih =>
    have hrest := ih fun t ht => hS t (List.mem_cons_of_mem p ht)
    obtain ⟨run, rfl, hne, hall⟩ := (extGroup_rmatch_iff p).mp (hS p (by simp)).2
    simpa using ExtGroups.grp run S.flatten hne hall hrest

theorem starExtGroup_rmatch_iff (x : List Char) :
    (RegularExpression.star extGroup).rmatch x = true ↔ ExtGroups x := by
  rw [RegularExpression.star_rmatch_iff]
  constructor
  · rintro ⟨S, rfl, hS⟩
    exact flatten_extGroups S hS
  · intro h
    induction h with
    | nil => exact ⟨[], rfl, by simp⟩
    | grp run rest hne hall _ ih =>
      obtain ⟨S, rfl, hS⟩ := ih
      refine ⟨('.' :: run) :: S, by simp, ?_⟩
      intro t ht
      rcases List.mem_cons.mp ht with rfl | ht
      · exact ⟨by simp, (extGroup_rmatch_iff _).mpr ⟨run, rfl, hne, hall⟩⟩
      · exact hS t ht

/-- The language accepted by the tail automaton from state `mid`. -/
def MidLang (r : List Char) : Prop :=
  ∃ m g, r = m ++ g ∧ (∀ c ∈ m, isMid c = true) ∧ ExtGroups g

/-- The language accepted by the tail automaton from state `afterDot`. -/
def AfterDotLang (r : List Char) : Prop :=
  ∃ run g, r = run ++ g ∧ run ≠ [] ∧ (∀ c ∈ run, isLow c = true) ∧ ExtGroups g

/-- The language accepted by the tail automaton from state `inExt`. -/
def InExtLang (r : List Char) : Prop :=
  ∃ run g, r = run ++ g ∧ (∀ c ∈ run, isLow c = true) ∧ ExtGroups g

theorem extGroups_cons {c : Char} {r : List Char} (h : ExtGroups (c :: r)) :
    c = '.' ∧ AfterDotLang r := by
  cases h with
  | grp run rest hne hall hg => exact ⟨rfl, run, rest, rfl, hne, hall, hg⟩

theorem tailRun_iff (r : List Char) :
    (tailRun .mid r = true ↔ MidLang r) ∧
    (tailRun .afterDot r = true ↔ AfterDotLang r) ∧
    (tailRun .inExt r = true ↔ InExtLang r) := by
  induction r with
  | nil =>
    refine ⟨?_, ?_, ?_⟩
    · simp only [tailRun, tailAccept, true_iff]
      exact ⟨[], [], rfl, by simp, ExtGroups.nil⟩
    · simp only [tailRun, tailAccept, Bool.false_eq_true, false_iff]
      rintro ⟨run, g, hrg, hne, -, -⟩
      exact hne (List.append_eq_nil.mp hrg.symm).1
    · simp only [tailRun, tailAccept, true_iff]
      exact ⟨[], [], rfl, by simp, ExtGroups.nil⟩
  | cons c r ih =>
    obtain ⟨ihm, iha, ihe⟩ := ih
    have hmid_dot : isMid '.' = false := by decide
    have hlow_dot : isLow '.' = false := by decide
    refine ⟨?_, ?_, ?_⟩
    · -- state mid
      by_cases hdot : c = '.'
      · subst hdot
        rw [show tailRun .mid ('.' :: r) = tailRun .afterDot r from rfl, iha]
        constructor
        · rintro ⟨run, g, rfl, hne, hall, hg⟩
          exact ⟨[], '.' :: (run ++ g), rfl, by simp, ExtGroups.grp run g hne hall hg⟩
        · rintro ⟨m, g, heq, hm, hg⟩
          cases m with
          | nil =>
            rcases heq with rfl
            exact (extGroups_cons hg).2
          | cons d m =>
            rcases List.cons_eq_cons.mp heq with ⟨rfl, -⟩
            rw [hm '.' (by simp)] at hmid_dot
            cases hmid_dot
      · have hstep0 : tailStep .mid c = if isMid c = true then some .mid else none := by
          simp only [tailStep, if_neg hdot]
        by_cases hm : isMid c = true
        · have hstep : tailStep .mid c = some .mid := by rw [hstep0, if_pos hm]
          have hrun : tailRun .mid (c :: r) = tailRun .mid r := by
            simp only [tailRun, hstep]
          rw [hrun, ihm]
          constructor
          · rintro ⟨m, g, rfl, hmm, hg⟩
            have hcons : ∀ d ∈ c :: m, isMid d = true := by
              intro d hd
              rcases List.mem_cons.mp hd with rfl | hd
              · exact hm
              · exact hmm d hd
            exact ⟨c :: m, g, rfl, hcons, hg⟩
          · rintro ⟨m, g, heq, hmm, hg⟩
            cases m with
            | nil =>
              rcases heq with rfl
              exact absurd (extGroups_cons hg).1 hdot
            | cons d m =>
              rcases List.cons_eq_cons.mp heq with ⟨rfl, rfl⟩
              exact ⟨m, g, rfl, fun e he => hmm e (List.mem_cons_of_mem c he), hg⟩
        · have hstep : tailStep .mid c = none := by
            rw [hstep0, if_neg hm]
          have hrun : tailRun .mid (c :: r) = false := by
            simp only [tailRun, hstep]
          rw [hrun]
          simp only [Bool.false_eq_true, false_iff]
          rintro ⟨m, g, heq, hmm, hg⟩
          cases m with
          | nil =>
            rcases heq with rfl
            exact absurd (extGroups_cons hg).1 hdot
          | cons d m =>
            rcases List.cons_eq_cons.mp heq with ⟨rfl, -⟩
            exact hm (hmm c (by simp))
    · -- state afterDot
      by_cases hl : isLow c = true
      · have hstep : tailStep .afterDot c = some .inExt := by
          simp only [tailStep, if_pos hl]
        have hrun : tailRun .afterDot (c :: r) = tailRun .inExt r := by
          simp only [tailRun, hstep]
        rw [hrun, ihe]
        constructor
        · rintro ⟨run, g, rfl, hall, hg⟩
          have hcons : ∀ d ∈ c :: run, isLow d = true := by
            intro d hd
            rcases List.mem_cons.mp hd with rfl | hd
            · exact hl
            · exact hall d hd
          exact ⟨c :: run, g, rfl, by simp, hcons, hg⟩
        · rintro ⟨run, g, heq, hne, hall, hg⟩
          cases run with
          | nil => exact absurd rfl hne
          | cons d run =>
            rcases List.cons_eq_cons.mp heq with ⟨rfl, rfl⟩
            exact ⟨run, g, rfl, fun e he => hall e (List.mem_cons_of_mem c he), hg⟩
      · have hstep : tailStep .afterDot c = none := by
          simp only [tailStep, if_neg hl]
        have hrun : tailRun .afterDot (c :: r) = false := by
          simp only [tailRun, hstep]
        rw [hrun]
        simp only [Bool.false_eq_true, false_iff]
        rintro ⟨run, g, heq, hne, hall, hg⟩
        cases run with
        | nil => exact absurd rfl hne
        | cons d run =>
          rcases List.cons_eq_cons.mp heq with ⟨rfl, -⟩
          exact hl (hall c (by simp))
    · -- state inExt
      by_cases hdot : c = '.'
      · subst hdot
        rw [show tailRun .inExt ('.' :: r) = tailRun .afterDot r from rfl, iha]
        constructor
        · rintro ⟨run, g, rfl, hne, hall, hg⟩
          exact ⟨[], '.' :: (run ++ g), rfl, by simp, ExtGroups.grp run g hne hall hg⟩
        · rintro ⟨run, g, heq, hall, hg⟩
          cases run with
          | nil =>
            rcases heq with rfl
            exact (extGroups_cons hg).2
          | cons d run =>
            rcases List.cons_eq_cons.mp heq with ⟨rfl, -⟩
            rw [hall '.' (by simp)] at hlow_dot
            cases hlow_dot
      · have hstep0 : tailStep .inExt c = if isLow c = true then some .inExt else none := by
          simp only [tailStep, if_neg hdot]
        by_cases hl : isLow c = true
        · have hstep : tailStep .inExt c = some .inExt := by rw [hstep0, if_pos hl]
          have hrun : tailRun .inExt (c :: r) = tailRun .inExt r := by
            simp only [tailRun, hstep]
          rw [hrun, ihe]
          constructor
          · rintro ⟨run, g, rfl, hall, hg⟩
            have hcons : ∀ d ∈ c :: run, isLow d = true := by
              intro d hd
              rcases List.mem_cons.mp hd with rfl | hd
              · exact hl
              · exact hall d hd
            exact ⟨c :: run, g, rfl, hcons, hg⟩
          · rintro ⟨run, g, heq, hall, hg⟩
            cases run with
            | nil =>
              rcases heq with rfl
              exact absurd (extGroups_cons hg).1 hdot
            | cons d run =>
              rcases List.cons_eq_cons.mp heq with ⟨rfl, rfl⟩
              exact ⟨run, g, rfl, fun e he => hall e (List.mem_cons_of_mem c he), hg⟩
        · have hstep : tailStep .inExt c = none := by
            rw [hstep0, if_neg hl]
          have hrun : tailRun .inExt (c :: r) = false := by
            simp only [tailRun, hstep]
          rw [hrun]
          simp only [Bool.false_eq_true, false_iff]
          rintro ⟨run, g, heq, hall, hg⟩
          cases run with
          | nil =>
            rcases heq with rfl
            exact absurd (extGroups_cons hg).1 hdot
          | cons d run =>
            rcases List.cons_eq_cons.mp heq with ⟨rfl, -⟩
            exact hl (hall c (by simp))
/-- The executable matcher recognizes exactly the language of the
transcribed regular expression `path_pattern`. -/
theorem path_shape_match_eq_rmatch (s : List Char) :
    path_shape_match s = path_pattern.rmatch s := by
  apply Bool.eq_iff_iff.mpr
  cases s with
  | nil =>
    simp only [path_shape_match]
    constructor
    · intro h; cases h
    · intro h
      rw [show path_pattern =
        chClass firstChars *
          (RegularExpression.star (chClass midChars) * RegularExpression.star extGroup)
        from rfl, RegularExpression.mul_rmatch_iff] at h
      obtain ⟨t, u, heq, ht, -⟩ := h
      obtain ⟨d, -, rfl⟩ := (chClass_rmatch_iff _ _).mp ht
      cases heq
  | cons c t =>
    rw [show path_shape_match (c :: t) = (firstChars.contains c && tailRun .mid t)
      from rfl, Bool.and_eq_true]
    rw [show path_pattern =
      chClass firstChars *
        (RegularExpression.star (chClass midChars) * RegularExpression.star extGroup)
      from rfl, RegularExpression.mul_rmatch_iff]
    constructor
    · rintro ⟨hc, hrun⟩
      obtain ⟨m, g, rfl, hm, hg⟩ := ((tailRun_iff t).1).mp hrun
      refine ⟨[c], m ++ g, rfl,
        (chClass_rmatch_iff _ _).mpr ⟨c, contains_iff_mem.mp hc, rfl⟩, ?_⟩
      rw [RegularExpression.mul_rmatch_iff]
      exact ⟨m, g, rfl,
        (starClass_rmatch_iff _ _).mpr fun d hd => contains_iff_mem.mp (hm d hd),
        (starExtGroup_rmatch_iff g).mpr hg⟩
    · rintro ⟨a, b, heq, ha, hb⟩
      obtain ⟨d, hd, rfl⟩ := (chClass_rmatch_iff _ _).mp ha
      rcases List.cons_eq_cons.mp heq with ⟨rfl, rfl⟩
      rw [RegularExpression.mul_rmatch_iff] at hb
      obtain ⟨m, g, rfl, hm, hg⟩ := hb
      refine ⟨contains_iff_mem.mpr hd, ((tailRun_iff _).1).mpr ?_⟩
      exact ⟨m, g, rfl,
        fun e he => contains_iff_mem.mpr ((starClass_rmatch_iff _ _).mp hm e he),
        (starExtGroup_rmatch_iff g).mp hg⟩

/-- No string containing a newline matches `path_pattern`: the newline
occurs in none of the pattern's character classes.  Hence a Python
`re.match` of the anchored pattern succeeds exactly when the whole
string, or the string minus a single trailing newline, matches — which
is what `path_pattern_match` computes. -/
theorem rmatch_no_newline (s : List Char) (h : path_pattern.rmatch s = true) :
    '\n' ∉ s := by
  rw [← path_shape_match_eq_rmatch] at h
  cases s with
  | nil => simp
  | cons c t =>
    rw [show path_shape_match (c :: t) = (firstChars.contains c && tailRun .mid t)
      from rfl, Bool.and_eq_true] at h
    intro hmem
    rcases List.mem_cons.mp hmem with rfl | hmem
    · have : '\n' ∈ firstChars := contains_iff_mem.mp h.1
      exact absurd this (by decide)
    · have hnl : ∀ (u : List Char) (st : PState), tailRun st u = true → '\n' ∉ u := by
        intro u
        induction u with
        | nil => intro st _; simp
        | cons d u ih =>
          intro st hrun hm
          simp only [tailRun] at hrun
          rcases List.mem_cons.mp hm with rfl | hm2
          · have hstep : tailStep st '\n' = none := by cases st <;> decide
            rw [hstep] at hrun
            cases hrun
          · cases hstep : tailStep st d with
            | none => rw [hstep] at hrun; cases hrun
            | some st2 =>
              rw [hstep] at hrun
              exact ih st2 hrun hm2
      exact hnl t .mid h.2 hmem

/-! ## Python string helpers -/

/-- Python's default whitespace characters (space, tab, line feed,
carriage return, vertical tab, form feed). -/
def pyWhitespace (c : Char) : Bool :=
  c == ' ' || c == '\t' || c == '\n' || c == '\r' ||
    c == Char.ofNat 11 || c == Char.ofNat 12

/-- Python `str.strip()`: drop leading and trailing whitespace. -/
def pyStrip (s : List Char) : List Char :=
  ((s.dropWhile pyWhitespace).reverse.dropWhile pyWhitespace).reverse

/-- The first element of `str.split()` (whitespace-delimited words);
`none` models the `IndexError` raised by `split()[0]` on a string with
no words. -/
def firstWord (s : List Char) : Option (List Char) :=
  let w := (s.dropWhile pyWhitespace).takeWhile (fun c => !pyWhitespace c)
  if w.isEmpty then none else some w

/-- Python `str.splitlines()` for line-feed-separated text (the fence contents
this codebase re-serializes): splits at `'\n'` and drops a final empty
piece produced by a trailing line feed. -/
def splitlinesPy : List Char → List (List Char)
  | [] => []
  | c :: s =>
    if c == '\n' then [] :: splitlinesPy s
    else
      match splitlinesPy s with
      | [] => [[c]]
      | l :: ls => (c :: l) :: ls

/-- The expression `'\n'.join(content_lines).strip() + '\n'` — the flush of an open
unit's accumulated lines (`fiction_index.py` lines 68 and 114). -/
def flushContent (cl : List (List Char)) : List Char :=
  pyStrip (List.intercalate ['\n'] cl) ++ ['\n']

/-- Python `chunk.split('\n', 1)`: `none` models the `ValueError` raised when
unpacking the one-element result for a chunk without a line feed. -/
def splitFirstLine (chunk : List Char) : Option (List Char × List Char) :=
  match chunk.dropWhile (fun c => !(c == '\n')) with
  | [] => none
  | _ :: r => some (chunk.takeWhile (fun c => !(c == '\n')), r)

/-- Field scanner for `re.split(r'^// ', s, re.M)` after the first line:
a marker is the three characters `"// "` immediately after a line feed;
the line feed stays with the preceding field and the marker is dropped. -/
def scanFields (acc : List Char) : List Char → List (List Char)
  | [] => [acc.reverse]
  | '\n' :: '/' :: '/' :: ' ' :: r => (acc.reverse ++ ['\n']) :: scanFields [] r
  | c :: r => scanFields (c :: acc) r

/-- Embedding of `split_pattern.split(s)` for `split_pattern = re.compile(r'^// ', re.M)`
(`fiction_index.py` line 12): split at every line-anchored `"// "`,
including one at the very start of the string. -/
def split_pattern_split (s : List Char) : List (List Char) :=
  match s with
  | '/' :: '/' :: ' ' :: r => [] :: scanFields [] r
  | _ => scanFields [] s

/-! ## The fence predicate and the strategies of `fiction_index.py`

A strategy returns `some units` — the `(path, content)` pairs handed to
`write_file`, in write order (the Python functions return the path list,
i.e. `units.map Prod.fst`) — or `none` when the Python raises. -/

/-- Embedding of `is_fence_code_block` (`fiction_index.py` lines 19-28). -/
def is_fence_code_block (t : Token) (markup : List Char) (info : Option (List Char)) : Bool :=
  match info with
  | some i =>
    if t.info == i then
      t.type == "fence".toList && t.tag == "code".toList && t.block &&
        t.markup == markup && !t.hidden
    else false
  | none =>
    t.type == "fence".toList && t.tag == "code".toList && t.block &&
      t.markup == markup && !t.hidden

/-- The lines contributed by a nested fence token in the h1 strategy
(`fiction_index.py` lines 93-101): indent from the nesting level, opening
delimiter with info string, each content line re-indented, closing
delimiter. -/
def fenceLines (t : Token) : List (List Char) :=
  let ind := List.replicate (t.level * 2) ' '
  (ind ++ t.markup ++ t.info) ::
    ((splitlinesPy t.content).map (fun l => ind ++ l) ++ [ind ++ t.markup])

/-- The unit flushed for an open path, if any. -/
def flushUnit (path : Option (List Char)) (cl : List (List Char)) :
    List (List Char × List Char) :=
  match path with
  | none => []
  | some p => [(p, flushContent cl)]

/-- Loop of `pass_01_fence_md_h1` (`fiction_index.py` lines 47-118) over
`zip(tokens, tokens[1:])`, with the loop state explicit: `skip` flag,
open `path`, `h1_is_content` flag `hic`, accumulated `content_lines`
`cl`, pending `content_prefix` `cpfx`.  The final `match` arm is the
end-of-loop flush; `none` models the `assert` on a non-inline successor
of an h1 `heading_open` and the `IndexError` of `split()[0]` on a
wordless inline. -/
def h1Go (skip : Bool) (path : Option (List Char)) (hic : Bool)
    (cl : List (List Char)) (cpfx : List Char) : List Token → Option (List (List Char × List Char))
  | t :: t2 :: rest =>
    if skip then h1Go false path hic cl cpfx (t2 :: rest)
    else if t.type == "heading_open".toList && t.tag == "h1".toList then
      if t2.type == "inline".toList then
        if hic then h1Go false path hic cl ("# ".toList) (t2 :: rest)
        else
          match firstWord t2.content with
          | none => none
          | some p =>
            if is_path p then
              match h1Go true (some p) true [] cpfx (t2 :: rest) with
              | none => none
              | some us => some (flushUnit path cl ++ us)
            else
              match h1Go true none hic [] cpfx (t2 :: rest) with
              | none => none
              | some us => some (flushUnit path cl ++ us)
      else none
    else
      match path with
      | none => h1Go false none hic cl cpfx (t2 :: rest)
      | some p =>
        if "hr".toList.isPrefixOf t.type then
          h1Go false (some p) false cl cpfx (t2 :: rest)
        else if "_open".toList.isSuffixOf t.type && !(t.type == "paragraph_open".toList) then
          h1Go false (some p) hic cl (t.markup ++ [' ']) (t2 :: rest)
        else if t.type == "inline".toList then
          h1Go false (some p) hic (cl ++ [cpfx ++ t.content]) [] (t2 :: rest)
        else if t.type == "fence".toList then
          h1Go false (some p) false (cl ++ fenceLines t) [] (t2 :: rest)
        else if t.type == "heading_close".toList then
          h1Go false (some p) hic (cl ++ [[]]) cpfx (t2 :: rest)
        else if t.type == "paragraph_close".toList &&
            !("close".toList.isSuffixOf t2.type) && !(t2.type == "fence".toList) then
          h1Go false (some p) hic (cl ++ [[]]) cpfx (t2 :: rest)
        else if t.type == "list_item_close".toList &&
            (t2.type == "heading_open".toList || t2.type == "bullet_list_close".toList ||
              t2.type == "ordered_list_close".toList) then
          h1Go false (some p) hic (cl ++ [[]]) cpfx (t2 :: rest)
        else h1Go false (some p) hic cl cpfx (t2 :: rest)
  | _ => some (flushUnit path cl)

/-- Embedding of `pass_01_fence_md_h1` (`fiction_index.py` lines 47-118): initial
state `path = None`, `skip = False`, `content_prefix = ''`,
`h1_is_content = False`, `content_lines = []`. -/
def pass_01_fence_md_h1 (tokens : List Token) : Option (List (List Char × List Char)) :=
  h1Go false none false [] [] tokens

/-- Loop of `pass_01_fence_md_h3` (`fiction_index.py` lines 121-142)
over `zip(tokens, tokens[1:])`. -/
def h3Go (skip : Bool) (path : Option (List Char)) :
    List Token → Option (List (List Char × List Char))
  | t :: t2 :: rest =>
    if skip then h3Go false path (t2 :: rest)
    else if t.type == "heading_open".toList && t.tag == "h3".toList then
      if t2.type == "inline".toList then
        if is_path t2.content then h3Go true (some t2.content) (t2 :: rest)
        else h3Go false path (t2 :: rest)
      else none
    else
      match path with
      | some p =>
        if is_fence_code_block t ("```".toList) none then
          match h3Go false none (t2 :: rest) with
          | none => none
          | some us => some ((p, t.content) :: us)
        else h3Go false (some p) (t2 :: rest)
      | none => h3Go false none (t2 :: rest)
  | _ => some []

/-- Embedding of `pass_01_fence_md_h3` (`fiction_index.py` lines 121-142). -/
def pass_01_fence_md_h3 (tokens : List Token) : Option (List (List Char × List Char)) :=
  h3Go false none tokens

/-- Embedding of `pass_01` (`fiction_index.py` lines 145-154): for every wrapper
fence (four backticks, info `markdown`) re-parse its content with the
external tokenizer and run the h1 and h3 strategies on the sub-stream. -/
def pass_01 (parse : List Char → List Token) : List Token → Option (List (List Char × List Char))
  | [] => some []
  | t :: rest =>
    if is_fence_code_block t ("````".toList) (some ("markdown".toList)) then
      match pass_01_fence_md_h1 (parse t.content) with
      | none => none
      | some u1 =>
        match pass_01_fence_md_h3 (parse t.content) with
        | none => none
        | some u2 =>
          match pass_01 parse rest with
          | none => none
          | some us => some (u1 ++ u2 ++ us)
    else pass_01 parse rest

/-- Embedding of `pass_02_fence_ts` (`fiction_index.py` lines 157-165): each chunk is
split at its first line feed into candidate path and content; the unit
is emitted when the candidate satisfies `is_path`. -/
def pass_02_fence_ts : List (List Char) → Option (List (List Char × List Char))
  | [] => some []
  | chunk :: rest =>
    match splitFirstLine chunk with
    | none => none
    | some (p, c) =>
      if is_path p then
        match pass_02_fence_ts rest with
        | none => none
        | some us => some ((p, c) :: us)
      else pass_02_fence_ts rest

/-- Embedding of `pass_02` (`fiction_index.py` lines 168-175): for every fence with
four backticks and info `typescript`, split its content on the line
comment marker, drop the preamble, and run `pass_02_fence_ts`. -/
def pass_02 : List Token → Option (List (List Char × List Char))
  | [] => some []
  | t :: rest =>
    if is_fence_code_block t ("````".toList) (some ("typescript".toList)) then
      match pass_02_fence_ts ((split_pattern_split t.content).drop 1) with
      | none => none
      | some u =>
        match pass_02 rest with
        | none => none
        | some us => some (u ++ us)
    else pass_02 rest

/-- The unit sequence of one full run of `main` (`fiction_index.py`
lines 178-189): `pass_01` then `pass_02`, concatenated. -/
def fullExtract (parse : List Char → List Token) (tokens : List Token) :
    Option (List (List Char × List Char)) :=
  match pass_01 parse tokens with
  | none => none
  | some u1 =>
    match pass_02 tokens with
    | none => none
    | some u2 => some (u1 ++ u2)

/-- Embedding of `pass_01_a` of `open-learning-cloud.py` (lines 26-37): triple-wise
iteration over `zip(tokens, tokens[1:], tokens[2:])`; for a fence whose
info is neither `markdown` nor empty the code asserts a three-backtick
delimiter (`none` when the assert fails), then emits the fence's content
under the inline text two positions earlier when that text is a path. -/
def pass_01_a : List Token → Option (List (List Char × List Char))
  | t2 :: tm :: t :: rest =>
    if t.type == "fence".toList && !(t.info == "markdown".toList) && !(t.info == []) then
      if t.markup == "```".toList then
        if t2.type == "inline".toList && is_path t2.content then
          match pass_01_a (tm :: t :: rest) with
          | none => none
          | some us => some ((t2.content, t.content) :: us)
        else pass_01_a (tm :: t :: rest)
      else none
    else pass_01_a (tm :: t :: rest)
  | _ => some []

/-! ## The materializer state

`write_file` truncates and overwrites; the file system after a run is a
map from paths to contents, folded over the unit sequence in write
order (last write wins). -/

/-- The empty output root. -/
def emptyFS : List Char → Option (List Char) := fun _ => none

/-- Apply every `(path, content)` write in order. -/
def writeAll (us : List (List Char × List Char)) (fs : List Char → Option (List Char)) :
    List Char → Option (List Char) :=
  us.foldl (fun m u => fun q => if q = u.1 then some u.2 else m q) fs

/-! ## Concrete token fixtures

Tokens as the markdown-it tokenizer produces them for the documents
used in the concrete theorems below (fields: type, tag, markup, info,
content, level, hidden, block). -/

/-- Token `heading_open` of an h1 (`# ...`). -/
def tokH1Open : Token := ⟨"heading_open".toList, "h1".toList, "#".toList, [], [], 0, false, true⟩

/-- The `inline` token holding a heading's or paragraph's text. -/
def tokInline (s : List Char) : Token := ⟨"inline".toList, [], [], [], s, 1, false, true⟩

/-- Token `heading_close` of an h1. -/
def tokH1Close : Token := ⟨"heading_close".toList, "h1".toList, "#".toList, [], [], 0, false, true⟩

/-- Token `heading_open` of an h3 (`### ...`). -/
def tokH3Open : Token := ⟨"heading_open".toList, "h3".toList, "###".toList, [], [], 0, false, true⟩

/-- Token `heading_close` of an h3. -/
def tokH3Close : Token := ⟨"heading_close".toList, "h3".toList, "###".toList, [], [], 0, false, true⟩

/-- A horizontal rule (`---`). -/
def tokHr : Token := ⟨"hr".toList, "hr".toList, "---".toList, [], [], 0, false, true⟩

/-- Token `paragraph_open`. -/
def tokParOpen : Token := ⟨"paragraph_open".toList, "p".toList, [], [], [], 0, false, true⟩

/-- Token `paragraph_close`. -/
def tokParClose : Token := ⟨"paragraph_close".toList, "p".toList, [], [], [], 0, false, true⟩

/-- The payload fence of the round-trip document:
three backticks, info `python`, body `print("hi")` plus line feed. -/
def tokFencePy : Token :=
  ⟨"fence".toList, "code".toList, "```".toList, "python".toList,
    "print(\"hi\")\n".toList, 0, false, true⟩

/-- The mega-block fence: four backticks, info `typescript`, two
path-comment markers. -/
def tokFenceTs4 : Token :=
  ⟨"fence".toList, "code".toList, "````".toList, "typescript".toList,
    "// src/a.ts\nconst a = 1;\n// src/b.ts\nconst b = 2;\n".toList, 0, false, true⟩

/-- A four-backtick `typescript` fence as the inner parse of a wrapper
fence whose content itself opened a four-backtick fence (document
`a`, blank line, then `\x60\x60\x60\x60typescript` and `x`). -/
def tokFenceTs4Unclosed : Token :=
  ⟨"fence".toList, "code".toList, "````".toList, "typescript".toList, "x\n".toList, 0, false, true⟩

/-- A mega-block fence whose content ends in a marker line with no
trailing line feed. -/
def tokFenceTsNoNl : Token :=
  ⟨"fence".toList, "code".toList, "````".toList, "typescript".toList,
    "// src/a.ts".toList, 0, false, true⟩

/-! ## Claims -/

/-- Claim C1, counterexample.  The claim reads `is_path(p)` as: `p` matches
the anchored regular expression (and contains a dot or is `LICENSE`).
At `p = "a.b\n"` the code returns true — Python's `re.match` lets `$`
match before a trailing newline — while the string does not match the
regular expression `path_pattern` itself, and it contains a dot, so the
claimed equivalence fails at this input. -/
theorem C1_trailing_newline_counterexample :
    is_path ("a.b\n".toList) = true ∧
      (path_pattern.rmatch ("a.b\n".toList) &&
        (("a.b\n".toList).contains '.' || "a.b\n".toList == "LICENSE".toList)) = false := by
  constructor
  · decide
  · decide

/-- Claim C1, amended.  For every string `p`, `is_path p` is true iff `p`
matches `^[.A-Za-z][/\-_A-Za-z]*(\.[a-z]+)*$` *under Python `re.match`
semantics* — i.e. either `p` or `p` minus a single trailing newline
matches the anchored pattern — and `p` contains a dot or equals
`LICENSE`; in particular the degenerate candidate `"."` is accepted. -/
theorem C1_is_path_characterization :
    (∀ p : List Char,
      is_path p =
        ((path_pattern.rmatch p ||
            (p.getLast? == some '\n' && path_pattern.rmatch p.dropLast)) &&
          (p.contains '.' || p == "LICENSE".toList))) ∧
    is_path (".".toList) = true := by
  constructor
  · intro p
    rw [show is_path p =
        ((p.contains '.' || p == "LICENSE".toList) && path_pattern_match p) from rfl]
    rw [show path_pattern_match p =
        (path_shape_match p || (p.getLast? == some '\n' && path_shape_match p.dropLast))
      from rfl]
    rw [path_shape_match_eq_rmatch p, path_shape_match_eq_rmatch p.dropLast]
    exact Bool.and_comm _ _
  · decide

/-- Claim C2, counterexample.  Document `# a.py`, rule `---`, `# b.py`:
when the marker `# b.py` is recognized, the previous marker `a.py` is
still open with no accumulated content (only the empty line appended at
its `heading_close`), yet the code flushes and writes it — content a
single newline — instead of abandoning it as the claim states. -/
theorem C2_incomplete_unit_still_written :
    pass_01_fence_md_h1
        [tokH1Open, tokInline ("a.py".toList), tokH1Close, tokHr,
          tokH1Open, tokInline ("b.py".toList), tokH1Close] =
      some [(("a.py".toList), ("\n".toList)), (("b.py".toList), ("\n".toList))] := by
  decide

/-- Claim C2, amended.  The h1 strategy never abandons an open marker:
from any loop state with an open path `p`, whenever the pass completes,
`p` is among the written paths — on a new h1 marker the open unit is
always flushed first (with content a single newline when nothing
accumulated), and at end of stream it is flushed too. -/
theorem C2_open_path_always_flushed :
    ∀ (l : List Token) (skip hic : Bool) (cl : List (List Char)) (cpfx p : List Char)
      (us : List (List Char × List Char)),
      h1Go skip (some p) hic cl cpfx l = some us → p ∈ us.map Prod.fst := by
  intro l
  induction l with
  | nil =>
    intro skip hic cl cpfx p us h
    rw [show h1Go skip (some p) hic cl cpfx [] = some [(p, flushContent cl)] from rfl] at h
    cases h
    simp
  | cons t l ih =>
    intro skip hic cl cpfx p us h
    cases l with
    | nil =>
      rw [show h1Go skip (some p) hic cl cpfx [t] = some [(p, flushContent cl)] from rfl] at h
      cases h
      simp
    | cons t2 rest =>
      simp only [h1Go] at h
      split at h
      · exact ih _ _ _ _ _ _ h
      · split at h
        · split at h
          · split at h
            · exact ih _ _ _ _ _ _ h
            · split at h
              · exact Option.noConfusion h
              · split at h
                · split at h
                  · exact Option.noConfusion h
                  · cases h
                    simp [flushUnit]
                · split at h
                  · exact Option.noConfusion h
                  · cases h
                    simp [flushUnit]
          · exact Option.noConfusion h
        · repeat' split at h
          all_goals exact ih _ _ _ _ _ _ h

/-- Witness for `C2_open_path_always_flushed` at a concrete state: an
open path `a.py` and a single remaining token; the flush emits it. -/
theorem C2_open_path_always_flushed_witness :
    ("a.py".toList) ∈ (List.map Prod.fst [(("a.py".toList), ("\n".toList))]) :=
  C2_open_path_always_flushed [tokHr] false false [] [] ("a.py".toList)
    [(("a.py".toList), ("\n".toList))] (by decide)

/-- Claim C3.  The claim says malformed documents never fail the run, but
the code raises: an h1 `heading_open` followed by an inline token with
no words (document `#`) raises `IndexError` at `split()[0]`
(`fiction_index.py` line 73), and a mega-block chunk with no line feed
(fence content `// src/a.ts`) raises `ValueError` when unpacking
`chunk.split('\n', 1)` (`fiction_index.py` line 160).  Both evaluate to
`none` — the model of an unhandled exception. -/
theorem C3_malformed_inputs_raise :
    pass_01_fence_md_h1 [tokH1Open, tokInline []] = none ∧
    pass_02_fence_ts [("src/a.ts".toList)] = none ∧
    pass_02 [tokFenceTsNoNl] = none := by
  refine ⟨by decide, by decide, by decide⟩

/-- Claim C4.  Mega-block split.  First conjunct: the fence tagged
`typescript` with content `// src/a.ts\nconst a = 1;\n// src/b.ts\n`
`const b = 2;\n` yields exactly the two claimed units.  Second
conjunct: on any chunk list in which every chunk has a line feed (so
`split('\n', 1)` succeeds), the strategy returns exactly the chunks
mapped to (first line, rest) and filtered by the path recognizer. -/
theorem C4_mega_block_split :
    pass_02 [tokFenceTs4] =
      some [(("src/a.ts".toList), ("const a = 1;\n".toList)),
        (("src/b.ts".toList), ("const b = 2;\n".toList))] ∧
    ∀ chunks : List (List Char), (∀ chunk ∈ chunks, '\n' ∈ chunk) →
      pass_02_fence_ts chunks =
        some (chunks.filterMap fun chunk =>
          match splitFirstLine chunk with
          | none => none
          | some (p, c) => if is_path p then some (p, c) else none) := by
  constructor
  · decide
  · intro chunks
    induction chunks with
    | nil => intro _; rfl
    | cons chunk rest ih =>
      intro h
      have hnl : '\n' ∈ chunk := h chunk (by simp)
      have ihr := ih fun ch hch => h ch (List.mem_cons_of_mem _ hch)
      cases hpc : splitFirstLine chunk with
      | none =>
        exfalso
        rw [show splitFirstLine chunk =
            (match chunk.dropWhile (fun c => !(c == '\n')) with
             | [] => none
             | _ :: r => some (chunk.takeWhile (fun c => !(c == '\n')), r)) from rfl] at hpc
        cases hdw : chunk.dropWhile (fun c => !(c == '\n')) with
        | nil =>
          have := List.dropWhile_eq_nil_iff.mp hdw '\n' hnl
          simp at this
        | cons a r => rw [hdw] at hpc; cases hpc
      | some pc =>
        obtain ⟨p, c⟩ := pc
        simp only [pass_02_fence_ts, hpc, ihr, List.filterMap_cons]
        by_cases hip : is_path p = true
        · simp [hip]
        · simp [hip]

/-- Witness for the second conjunct of `C4_mega_block_split` at the two
concrete chunks of the mega-block example. -/
theorem C4_mega_block_split_witness :
    pass_02_fence_ts [("src/a.ts\nconst a = 1;\n".toList), ("src/b.ts\nconst b = 2;\n".toList)] =
      some ([("src/a.ts\nconst a = 1;\n".toList), ("src/b.ts\nconst b = 2;\n".toList)].filterMap
        fun chunk =>
          match splitFirstLine chunk with
          | none => none
          | some (p, c) => if is_path p then some (p, c) else none) :=
  C4_mega_block_split.2 _ (by decide)

/-- Claim C6, counterexample.  In the sub-document whose tokens are
exactly h1 `src/app.py`, its inline and close, then the `python` fence
with body `print("hi")\n` — and nothing after the fence — the pairwise
iteration never processes the fence (it is the final token), so the
recovered content for `src/app.py` is a bare newline, not the claimed
fence reconstruction. -/
theorem C6_round_trip_counterexample :
    pass_01_fence_md_h1 [tokH1Open, tokInline ("src/app.py".toList), tokH1Close, tokFencePy] =
      some [(("src/app.py".toList), ("\n".toList))] ∧
    ("\n".toList : List Char) ≠ ("```python\nprint(\"hi\")\n```\n".toList) := by
  refine ⟨by decide, by decide⟩

/-- Claim C6, amended.  When at least one token follows the fence (here a
horizontal rule, so that the fence is processed as a current token), the
recovered content for `src/app.py` is exactly the fence's opening
delimiter with info tag, the body re-indented by two spaces per nesting
level (level 0: none), and the closing delimiter, stripped, with one
trailing newline. -/
theorem C6_round_trip_amended :
    pass_01_fence_md_h1
        [tokH1Open, tokInline ("src/app.py".toList), tokH1Close, tokFencePy, tokHr] =
      some [(("src/app.py".toList), ("```python\nprint(\"hi\")\n```\n".toList))] := by
  decide

/-- Claim C9.  The pass `pass_02` touches only fences whose info is exactly
`typescript` and whose delimiter is exactly four backticks: on any
token stream in which no token has both, it returns no units at all. -/
theorem C9_only_typescript_mega_fences :
    ∀ ts : List Token,
      (∀ t ∈ ts, ¬(t.info = "typescript".toList ∧ t.markup = "````".toList)) →
      pass_02 ts = some [] := by
  intro ts
  induction ts with
  | nil => intro _; rfl
  | cons t rest ih =>
    intro h
    have hfence : is_fence_code_block t ("````".toList) (some ("typescript".toList)) = false := by
      have ht := h t (by simp)
      rw [show is_fence_code_block t ("````".toList) (some ("typescript".toList)) =
          (if t.info == "typescript".toList then
            t.type == "fence".toList && t.tag == "code".toList && t.block &&
              t.markup == "````".toList && !t.hidden
          else false) from rfl]
      by_cases hinfo : (t.info == "typescript".toList) = true
      · rw [if_pos hinfo]
        have hmk : (t.markup == "````".toList) = false := by
          cases hmkv : (t.markup == "````".toList) with
          | true => exact absurd ⟨beq_iff_eq.mp hinfo, beq_iff_eq.mp hmkv⟩ ht
          | false => rfl
        simp
        intro h1 h2 h3 hm4
        exact absurd hm4 (by simpa using hmk)
      · rw [if_neg hinfo]
    simp only [pass_02, hfence]
    rw [if_neg (by simp)]
    exact ih fun u hu => h u (List.mem_cons_of_mem _ hu)

/-- Witness for `C9_only_typescript_mega_fences`: a stream holding one
three-backtick `python` fence yields no mega-block units. -/
theorem C9_only_typescript_mega_fences_witness :
    pass_02 [tokFencePy] = some [] :=
  C9_only_typescript_mega_fences [tokFencePy] (by decide)

/-- Claim C10, counterexample.  The pass `pass_01_a` is invoked by the loose
variant's outer pass on the re-parse of a wrapper fence's content; for
the well-formed document whose wrapper content is `a`, blank line, then
an (unclosed) four-backtick `typescript` fence around `x`, that
re-parse is the token stream below, and the fence reaches the assert
with markup of four backticks: the assertion fails and the pass aborts
(`none`), contradicting the claim that it holds on every invoked
stream. -/
theorem C10_assert_can_fail :
    pass_01_a [tokParOpen, tokInline ("a".toList), tokParClose, tokFenceTs4Unclosed] = none := by
  decide

/-- Claim C10, amended.  The assertion is a genuine input restriction:
on every token stream in which each fence token whose info is non-empty
and not `markdown` carries a three-backtick delimiter, `pass_01_a`
completes without aborting. -/
theorem C10_assert_guard :
    ∀ ts : List Token,
      (∀ t ∈ ts, t.type = "fence".toList → ¬t.info = "markdown".toList → ¬t.info = [] →
        t.markup = "```".toList) →
      ∃ us, pass_01_a ts = some us := by
  intro ts
  induction ts with
  | nil => intro _; exact ⟨[], rfl⟩
  | cons a ts ih =>
    intro h
    cases ts with
    | nil => exact ⟨[], rfl⟩
    | cons b ts2 =>
      cases ts2 with
      | nil => exact ⟨[], rfl⟩
      | cons c rest =>
        obtain ⟨us, hus⟩ := ih fun u hu => h u (List.mem_cons_of_mem a hu)
        simp only [pass_01_a]
        by_cases hf : (c.type == "fence".toList && !(c.info == "markdown".toList) &&
            !(c.info == [])) = true
        · have hparts : c.type = "fence".toList ∧ ¬c.info = "markdown".toList ∧
              ¬c.info = [] := by
            simp only [Bool.and_eq_true, Bool.not_eq_true', beq_iff_eq, beq_eq_false_iff_ne,
              ne_eq] at hf
            exact ⟨hf.1.1, hf.1.2, hf.2⟩
          have hmk : (c.markup == "```".toList) = true :=
            beq_iff_eq.mpr (h c (by simp) hparts.1 hparts.2.1 hparts.2.2)
          rw [if_pos hf, if_pos hmk]
          by_cases hin : (a.type == "inline".toList && is_path a.content) = true
          · rw [if_pos hin, hus]
            exact ⟨_, rfl⟩
          · rw [if_neg hin]
            exact ⟨us, hus⟩
        · rw [if_neg hf]
          exact ⟨us, hus⟩

/-- Witness for `C10_assert_guard`: the h1/h3-style stream with a
three-backtick `python` fence satisfies the guard. -/
theorem C10_assert_guard_witness :
    ∃ us, pass_01_a [tokParOpen, tokInline ("a.py".toList), tokParClose, tokFencePy] = some us :=
  C10_assert_guard [tokParOpen, tokInline ("a.py".toList), tokParClose, tokFencePy] (by decide)

/-! ## C5: dangling h3 markers -/

/-- A path-shaped h3 marker: h3 `heading_open` whose following inline
text satisfies the path recognizer. -/
def isH3Marker (t t2 : Token) : Bool :=
  t.type == "heading_open".toList && t.tag == "h3".toList &&
    t2.type == "inline".toList && is_path t2.content

/-- Tokenizer well-formedness used by the h3 strategy's `assert`: every
h3 `heading_open` is immediately followed by an `inline` token
(markdown-it always emits `heading_open`, `inline`, `heading_close`). -/
def wfH3 : List Token → Bool
  | t :: t2 :: rest =>
    (!(t.type == "heading_open".toList && t.tag == "h3".toList) || t2.type == "inline".toList) &&
      wfH3 (t2 :: rest)
  | _ => true

/-- No path-shaped h3 marker is ever followed, anywhere later in the
stream, by a payload (three-backtick) fence. -/
def noMarkerThenFence : List Token → Bool
  | t :: t2 :: rest =>
    (!isH3Marker t t2 ||
      (t2 :: rest).all (fun u => !is_fence_code_block u ("```".toList) none)) &&
      noMarkerThenFence (t2 :: rest)
  | _ => true

theorem h3Go_no_fence : ∀ (l : List Token) (skip : Bool) (path : Option (List Char)),
    wfH3 l = true → noMarkerThenFence l = true →
    (∀ p, path = some p →
      l.all (fun u => !is_fence_code_block u ("```".toList) none) = true) →
    h3Go skip path l = some [] := by
  intro l
  induction l with
  | nil => intro skip path _ _ _; rfl
  | cons t l ih =>
    intro skip path hwf hnm hpath
    cases l with
    | nil => rfl
    | cons t2 rest =>
      have hwfp : ((!(t.type == "heading_open".toList && t.tag == "h3".toList) ||
          t2.type == "inline".toList) = true) ∧ wfH3 (t2 :: rest) = true := by
        simpa only [wfH3, Bool.and_eq_true] using hwf
      have hnmp : ((!isH3Marker t t2 ||
          (t2 :: rest).all (fun u => !is_fence_code_block u ("```".toList) none)) = true) ∧
          noMarkerThenFence (t2 :: rest) = true := by
        simpa only [noMarkerThenFence, Bool.and_eq_true] using hnm
      have hpath' : ∀ p, path = some p →
          (t2 :: rest).all (fun u => !is_fence_code_block u ("```".toList) none) = true := by
        intro p hp
        have h2 := hpath p hp
        simp only [List.all_cons, Bool.and_eq_true] at h2
        simpa only [List.all_cons, Bool.and_eq_true] using h2.2
      simp only [h3Go]
      split
      · exact ih _ _ hwfp.2 hnmp.2 hpath'
      · split
        · split
          · split
            · -- new marker: previous path replaced by t2.content
              rename_i hskip hhead hinl hisp
              apply ih _ _ hwfp.2 hnmp.2
              intro p hp
              cases hp
              have hmark : isH3Marker t t2 = true := by
                simp only [isH3Marker, Bool.and_eq_true]
                have hht : (t.type == "heading_open".toList) = true ∧
                    (t.tag == "h3".toList) = true := by
                  simpa only [Bool.and_eq_true] using hhead
                exact ⟨⟨hht, hinl⟩, hisp⟩
              have hX := hnmp.1
              rw [hmark] at hX
              simpa using hX
            · exact ih _ _ hwfp.2 hnmp.2 hpath'
          · rename_i hskip hhead hinl
            exfalso
            have hX := hwfp.1
            rw [hhead] at hX
            simp only [Bool.not_true, Bool.false_or] at hX
            exact hinl hX
        · split
          · split
            · rename_i hskip hhead p hfence
              have hX := hpath p rfl
              simp only [List.all_cons, Bool.and_eq_true] at hX
              have hh := hX.1
              rw [hfence] at hh
              simp at hh
            · exact ih _ _ hwfp.2 hnmp.2 hpath'
          · exact ih _ _ hwfp.2 hnmp.2 hpath'

/-- Claim C5.  On every well-formed token stream in which no path-shaped
h3 heading is ever followed by a payload fence, the h3 strategy yields
zero units, without error: a unit is emitted only at a complete
marker-plus-fence pair, and a dangling marker is discarded silently. -/
theorem C5_dangling_marker_yields_nothing :
    ∀ ts : List Token, wfH3 ts = true → noMarkerThenFence ts = true →
      pass_01_fence_md_h3 ts = some [] := by
  intro ts hwf hnm
  exact h3Go_no_fence ts false none hwf hnm fun p hp => Option.noConfusion hp

/-- Witness for `C5_dangling_marker_yields_nothing`: the document
`### notes.txt` with no following fence. -/
theorem C5_dangling_marker_witness :
    pass_01_fence_md_h3 [tokH3Open, tokInline ("notes.txt".toList), tokH3Close] = some [] :=
  C5_dangling_marker_yields_nothing [tokH3Open, tokInline ("notes.txt".toList), tokH3Close]
    (by decide) (by decide)

/-! ## C7: determinism and idempotence of the full extraction -/

theorem writeAll_or (us : List (List Char × List Char)) :
    ∀ (fs : List Char → Option (List Char)) (q : List Char),
      writeAll us fs q = Option.or (writeAll us emptyFS q) (fs q) := by
  induction us with
  | nil => intro fs q; rfl
  | cons u us ih =>
    intro fs q
    rw [show writeAll (u :: us) fs =
        writeAll us (fun q2 => if q2 = u.1 then some u.2 else fs q2) from rfl]
    rw [show writeAll (u :: us) emptyFS =
        writeAll us (fun q2 => if q2 = u.1 then some u.2 else emptyFS q2) from rfl]
    rw [ih (fun q2 => if q2 = u.1 then some u.2 else fs q2) q,
      ih (fun q2 => if q2 = u.1 then some u.2 else emptyFS q2) q]
    cases hW : writeAll us emptyFS q with
    | some v => simp [Option.or]
    | none =>
      by_cases hq : q = u.1 <;> simp [hq, Option.or, emptyFS]

theorem writeAll_idem (us : List (List Char × List Char)) (fs : List Char → Option (List Char))
    (q : List Char) : writeAll us (writeAll us fs) q = writeAll us fs q := by
  rw [writeAll_or us (writeAll us fs) q, writeAll_or us fs q]
  cases writeAll us emptyFS q <;> simp [Option.or]

/-- Claim C7.  For a fixed tokenizer and token stream, two completed runs
of the full extraction return the same unit sequence, and replaying the
whole write sequence a second time over the files it produced changes
no file: the final file set is byte-identical across re-runs
(last-write-wins at duplicated paths). -/
theorem C7_deterministic_idempotent :
    ∀ (parse : List Char → List Token) (ts : List Token)
      (us1 us2 : List (List Char × List Char)),
      fullExtract parse ts = some us1 → fullExtract parse ts = some us2 →
      us1 = us2 ∧ ∀ q, writeAll us1 (writeAll us1 emptyFS) q = writeAll us1 emptyFS q := by
  intro parse ts us1 us2 h1 h2
  refine ⟨Option.some.inj (h1.symm.trans h2), ?_⟩
  intro q
  exact writeAll_idem us1 emptyFS q

/-- Witness for `C7_deterministic_idempotent` at the empty document and
the constant-empty tokenizer. -/
theorem C7_deterministic_idempotent_witness :
    ([] : List (List Char × List Char)) = [] ∧
      ∀ q, writeAll [] (writeAll [] emptyFS) q = writeAll [] emptyFS q :=
  C7_deterministic_idempotent (fun _ => []) [] [] [] rfl rfl

/-! ## C8: the pairwise iteration never processes the final token -/

theorem h3Go_append_one : ∀ (l : List Token) (f g : Token), f.type = g.type →
    f.content = g.content →
    ∀ (skip : Bool) (path : Option (List Char)),
      h3Go skip path (l ++ [f]) = h3Go skip path (l ++ [g]) := by
  intro l f g hft hfc
  induction l with
  | nil => intro skip path; rfl
  | cons t l ih =>
    intro skip path
    cases l with
    | nil =>
      simp only [List.cons_append, List.nil_append, h3Go, hft, hfc]
    | cons t2 rest =>
      simp only [List.cons_append] at *
      simp only [h3Go, ih]

theorem h1Go_append_one : ∀ (l : List Token) (f g : Token), f.type = g.type →
    f.content = g.content →
    ∀ (skip hic : Bool) (path : Option (List Char)) (cl : List (List Char)) (cpfx : List Char),
      h1Go skip path hic cl cpfx (l ++ [f]) = h1Go skip path hic cl cpfx (l ++ [g]) := by
  intro l f g hft hfc
  induction l with
  | nil => intro skip hic path cl cpfx; rfl
  | cons t l ih =>
    intro skip hic path cl cpfx
    cases l with
    | nil =>
      simp only [List.cons_append, List.nil_append, h1Go, hft, hfc]
    | cons t2 rest =>
      simp only [List.cons_append] at *
      simp only [h1Go, ih]

/-- Claim C8.  The pairwise strategies never process a stream's final
token as the current token.  (1) In the h3 strategy, a payload fence
that is the last remaining token closes nothing: no unit is emitted
even with a pending path.  (2) In the h1 strategy the last remaining
token contributes nothing beyond the end-of-stream flush of the pending
path.  (3) In both strategies the final token of a stream matters only
through the fields a lookahead reads — its `type` and `content`:
replacing it by any token with the same `type` and `content` (fence or
not, any markup or info) leaves the result unchanged. -/
theorem C8_final_token_never_current :
    (∀ (skip : Bool) (path : Option (List Char)) (f : Token),
      is_fence_code_block f ("```".toList) none = true → h3Go skip path [f] = some []) ∧
    (∀ (skip hic : Bool) (path : Option (List Char)) (cl : List (List Char)) (cpfx : List Char)
      (t : Token), h1Go skip path hic cl cpfx [t] = some (flushUnit path cl)) ∧
    (∀ (ts : List Token) (f g : Token), f.type = g.type → f.content = g.content →
      pass_01_fence_md_h3 (ts ++ [f]) = pass_01_fence_md_h3 (ts ++ [g]) ∧
        pass_01_fence_md_h1 (ts ++ [f]) = pass_01_fence_md_h1 (ts ++ [g])) := by
  refine ⟨fun skip path f _ => rfl, fun skip hic path cl cpfx t => rfl, ?_⟩
  intro ts f g hft hfc
  exact ⟨h3Go_append_one ts f g hft hfc false none,
    h1Go_append_one ts f g hft hfc false false none [] []⟩

/-- A token with the same `type` and `content` as `tokFencePy` but a
tilde delimiter and no info string. -/
def tokFenceTilde : Token :=
  ⟨"fence".toList, "code".toList, "~~~".toList, [], "print(\"hi\")\n".toList, 0, false, true⟩

/-- Witness for `C8_final_token_never_current`: a pending `notes.txt`
marker with a last-token payload fence emits nothing, and swapping the
final fence of the h3/h1 round-trip stream for a tilde fence with the
same type and content changes neither strategy's result. -/
theorem C8_final_token_never_current_witness :
    h3Go false (some ("notes.txt".toList)) [tokFencePy] = some [] ∧
      (pass_01_fence_md_h3
          ([tokH1Open, tokInline ("src/app.py".toList), tokH1Close] ++ [tokFencePy]) =
        pass_01_fence_md_h3
          ([tokH1Open, tokInline ("src/app.py".toList), tokH1Close] ++ [tokFenceTilde]) ∧
      pass_01_fence_md_h1
          ([tokH1Open, tokInline ("src/app.py".toList), tokH1Close] ++ [tokFencePy]) =
        pass_01_fence_md_h1
          ([tokH1Open, tokInline ("src/app.py".toList), tokH1Close] ++ [tokFenceTilde])) :=
  ⟨C8_final_token_never_current.1 false (some ("notes.txt".toList)) tokFencePy (by decide),
    C8_final_token_never_current.2.2
      [tokH1Open, tokInline ("src/app.py".toList), tokH1Close] tokFencePy tokFenceTilde rfl rfl⟩

end ClaudeExporter
